import Mathlib

/-!
Verification of the match-extraction and hint-allocation core of tmux-thumbs
(`src/state.rs`).  The scanner is embedded shallowly: the regex collaborator is
modelled by a small leftmost-first matcher over `List Char` (ASCII; byte offsets
of the Rust code coincide with character indices on the ASCII inputs considered
here), and `State::matches` is translated line by line into `StateMatches`.
-/

set_option maxHeartbeats 1000000

namespace TmuxThumbs

/-- One way a regex can match at the current position: consumed length together
with the span of capture group 1 (start, end), relative to the attempt start.
Later groups are never read by `state.rs`, so they are not tracked. -/
abbrev Res := Nat × Option (Nat × Nat)

/-- Regexes, as used by the pattern catalog of `state.rs`.  `cls` is a character
class, `lit` a literal, `group` marks capture group 1. -/
inductive RE where
  | cls (p : Char → Bool)
  | lit (cs : List Char)
  | alt (r1 r2 : RE)
  | cat (r1 r2 : RE)
  | group (r : RE)
  | star (r : RE)

/-- Shift a capture span by `k` positions. -/
def cshift (k : Nat) : Option (Nat × Nat) → Option (Nat × Nat)
  | none => none
  | some (a, b) => some (a + k, b + k)

/-- First-biased choice between optional values. -/
def orO {α : Type} : Option α → Option α → Option α
  | some a, _ => some a
  | none, b => b

/-- Does `cs` occur literally at the front of `s`? -/
def litMatch : List Char → List Char → Bool
  | [], _ => true
  | _ :: _, [] => false
  | a :: as, b :: bs => a = b && litMatch as bs

/-- Greedy iteration for `star`: all results, preferring more iterations, an
iteration being required to consume at least one character (regex engines do
not loop on empty matches).  `m` is the matcher of the starred regex; the fuel
is always called with at least `s.length + 1`, which is sufficient since every
iteration consumes. -/
def starFuel (m : List Char → List Res) : Nat → List Char → List Res
  | 0, _ => [(0, none)]
  | fuel + 1, s =>
      ((m s).filter (fun x => decide (0 < x.1))).flatMap
        (fun x => (starFuel m fuel (s.drop x.1)).map
          (fun y => (x.1 + y.1, orO (cshift x.1 y.2) x.2))) ++ [(0, none)]

/-- All matches of `r` at the start of `s`, in the preference order of a
leftmost-first (Perl style, as the Rust regex crate) engine: alternation
prefers its left branch, repetition is greedy.  The head of the list is the
match the engine reports. -/
def matchL : RE → List Char → List Res
  | .cls p, s =>
      match s with
      | [] => []
      | c :: _ => if p c then [(1, none)] else []
  | .lit cs, s => if litMatch cs s then [(cs.length, none)] else []
  | .alt r1 r2, s => matchL r1 s ++ matchL r2 s
  | .cat r1 r2, s =>
      (matchL r1 s).flatMap (fun x =>
        (matchL r2 (s.drop x.1)).map (fun y => (x.1 + y.1, orO x.2 (cshift x.1 y.2))))
  | .group r, s => (matchL r s).map (fun x => (x.1, some (0, x.1)))
  | .star r, s => starFuel (matchL r) (s.length + 1) s

/-- `Regex::find_iter(s).nth(0)` from position `i` on: the first (leftmost)
match of `r` in `s`, as (absolute start, length, group-1 span relative to the
start). -/
def findFrom (r : RE) : List Char → Nat → Option (Nat × Nat × Option (Nat × Nat))
  | s, i =>
      match matchL r s with
      | x :: _ => some (i, x.1, x.2)
      | [] =>
          match s with
          | [] => none
          | _ :: t => findFrom r t (i + 1)

/- Character classes appearing in the catalog of `state.rs`.  `\w` is taken in
its ASCII reading. -/

def isCntrl (c : Char) : Bool := c.toNat ≤ 31 || c.toNat == 127

def isDigitC (c : Char) : Bool := 48 ≤ c.toNat && c.toNat ≤ 57

def isHexLower (c : Char) : Bool := isDigitC c || (97 ≤ c.toNat && c.toNat ≤ 102)

def isHexAny (c : Char) : Bool := isHexLower c || (65 ≤ c.toNat && c.toNat ≤ 70)

def isWord (c : Char) : Bool :=
  isDigitC c || (65 ≤ c.toNat && c.toNat ≤ 90) || (97 ≤ c.toNat && c.toNat ≤ 122) || c == '_'

def isUrlChar (c : Char) : Bool := isWord c || ("?=%/_.:,;~@!#$&()*+-".data.contains c)

def notSpace (c : Char) : Bool := !(c == ' ')

def notSpaceCntrl (c : Char) : Bool := !(c == ' ') && !(isCntrl c)

/- Regex combinators used to transcribe the catalog. -/

def chr (c : Char) : RE := .lit [c]

def strR (s : String) : RE := .lit s.data

def opt (r : RE) : RE := .alt r (.lit [])

def plus (r : RE) : RE := .cat r (.star r)

def repExact (r : RE) : Nat → RE
  | 0 => .lit []
  | k + 1 => .cat r (repExact r k)

def repUpTo (r : RE) : Nat → RE
  | 0 => .lit []
  | k + 1 => .alt (.cat r (repUpTo r k)) (.lit [])

def repRange (r : RE) (m n : Nat) : RE := .cat (repExact r m) (repUpTo r (n - m))

def repAtLeast (r : RE) (m : Nat) : RE := .cat (repExact r m) (.star r)

/- The pattern catalog, transcribed from the `EXCLUDE_PATTERNS` and `PATTERNS`
constants of `state.rs`. -/

/-- `[[:cntrl:]]\[([0-9]{1,2};)?([0-9]{1,2})?m` -/
def bashRE : RE :=
  .cat (.cls isCntrl) (.cat (chr '[')
    (.cat (opt (.group (.cat (repRange (.cls isDigitC) 1 2) (chr ';'))))
      (.cat (opt (repRange (.cls isDigitC) 1 2)) (chr 'm'))))

/-- `((https?://|git@|git://|ssh://|ftp://|file:///)[\w?=%/_.:,;~@!#$&()*+-]*)` -/
def urlRE : RE :=
  .group (.cat
    (.alt (.cat (strR "http") (.cat (opt (chr 's')) (strR "://")))
      (.alt (strR "git@") (.alt (strR "git://")
        (.alt (strR "ssh://") (.alt (strR "ftp://") (strR "file:///"))))))
    (.star (.cls isUrlChar)))

/-- `--- a/([^ ]+)` -/
def diffARE : RE := .cat (strR "--- a/") (.group (plus (.cls notSpace)))

/-- `\+\+\+ b/([^ ]+)` -/
def diffBRE : RE := .cat (strR "+++ b/") (.group (plus (.cls notSpace)))

/-- `[^ ]+/[^ [[:cntrl:]]]+` -/
def pathRE : RE := .cat (plus (.cls notSpace)) (.cat (chr '/') (plus (.cls notSpaceCntrl)))

/-- `#[0-9a-fA-F]{6}` -/
def colorRE : RE := .cat (chr '#') (repExact (.cls isHexAny) 6)

/-- `[0-9a-f]{8}-[0-9a-f]{4}-[0-9a-f]{4}-[0-9a-f]{4}-[0-9a-f]{12}` -/
def uidRE : RE :=
  .cat (repExact (.cls isHexLower) 8) (.cat (chr '-')
    (.cat (repExact (.cls isHexLower) 4) (.cat (chr '-')
      (.cat (repExact (.cls isHexLower) 4) (.cat (chr '-')
        (.cat (repExact (.cls isHexLower) 4) (.cat (chr '-')
          (repExact (.cls isHexLower) 12))))))))

/-- `[0-9a-f]{7,40}` -/
def shaRE : RE := repRange (.cls isHexLower) 7 40

/-- `\d{1,3}\.\d{1,3}\.\d{1,3}\.\d{1,3}` -/
def ipRE : RE :=
  .cat (repRange (.cls isDigitC) 1 3) (.cat (chr '.')
    (.cat (repRange (.cls isDigitC) 1 3) (.cat (chr '.')
      (.cat (repRange (.cls isDigitC) 1 3) (.cat (chr '.')
        (repRange (.cls isDigitC) 1 3))))))

/-- `0x[0-9a-fA-F]+` -/
def addressRE : RE := .cat (strR "0x") (plus (.cls isHexAny))

/-- `[0-9]{4,}` -/
def numberRE : RE := repAtLeast (.cls isDigitC) 4

/-- `EXCLUDE_PATTERNS` of `state.rs`. -/
def EXCLUDE_PATTERNS : List (String × RE) := [("bash", bashRE)]

/-- `PATTERNS` of `state.rs`, in its fixed order. -/
def PATTERNS : List (String × RE) :=
  [("url", urlRE), ("diff_a", diffARE), ("diff_b", diffBRE), ("path", pathRE),
   ("color", colorRE), ("uid", uidRE), ("sha", shaRE), ("ip", ipRE),
   ("address", addressRE), ("number", numberRE)]

/-- The full catalog `[exclude_patterns, custom_patterns, patterns].concat()`
for already-compiled custom patterns. -/
def allPatterns (customs : List RE) : List (String × RE) :=
  EXCLUDE_PATTERNS ++ customs.map (fun r => ("custom", r)) ++ PATTERNS

/-- Two's-complement interpretation of an integer as an `i32`: the value
reduced into `[-2^31, 2^31)`.  Every `as i32` cast and every `i32` addition of
`state.rs` goes through this wrap (additions wrap as in release builds; a
debug build would abort on an overflowing addition instead, and the inputs
considered below never overflow an addition, only the casts). -/
def wrap32 (n : Int) : Int := (n + 2147483648) % 4294967296 - 2147483648

/-- The `usize → i32` cast (`matching.start() as i32`, `index as i32`, ...):
truncating, so positions at `2^31` and beyond come out negative. -/
def castI32 (n : Nat) : Int := wrap32 n

/-- `i32` addition. -/
def addI32 (a b : Int) : Int := wrap32 (a + b)

/-- The `Match` struct of `state.rs` (text as a copied character list).
`x` and `y` hold the `i32` column and line values, represented as the
mathematical integers produced by the wrapped `i32` arithmetic above. -/
structure M where
  x : Int
  y : Int
  text : List Char
  hint : Option String
deriving DecidableEq, Repr

/-- The hint-free fields of a match. -/
def projM (m : M) : Int × Int × List Char := (m.x, m.y, m.text)

/-- One entry of the `submatches` vector: a pattern together with its first
match in the current chunk. -/
structure Sub where
  name : String
  re : RE
  mstart : Nat
  mlen : Nat
  cap : Option (Nat × Nat)

/-- `all_patterns.iter().filter_map(...)`: every pattern that matches in the
chunk, paired with its first match, in catalog order. -/
def submatches (pats : List (String × RE)) (chunk : List Char) : List Sub :=
  pats.filterMap (fun p =>
    (findFrom p.2 chunk 0).map (fun m => ⟨p.1, p.2, m.1, m.2.1, m.2.2⟩))

/-- One comparison step of `min_by`: Rust's `min_by` keeps the first element
among equal minima, so the accumulator is replaced only on strict decrease. -/
def minStep (acc : Option Sub) (x : Sub) : Option Sub :=
  match acc with
  | none => some x
  | some a => if x.mstart < a.mstart then some x else some a

/-- `submatches.iter().min_by(|x, y| x.2.start().cmp(&y.2.start()))`. -/
def minByStart (l : List Sub) : Option Sub :=
  l.foldl minStep none

/-- One selection step of the scan loop. -/
def selectMatch (pats : List (String × RE)) (chunk : List Char) : Option Sub :=
  minByStart (submatches pats chunk)

/-- Errors of the whole operation: a custom pattern that does not compile
(`expect("Invalid custom regexp")`), or the internal `panic!("No matching?")`. -/
inductive Err where
  | badPattern
  | noMatching
deriving DecidableEq, Repr

/-- The capture step: `pattern.captures(text)` re-runs the winning pattern on
the matched text; `captures.get(1)` selects the emitted span (capture text and
its start in `text`) and the whole match is used when group 1 is absent; a
failed re-match is the `panic!("No matching?")` branch. -/
def emittedSpan (r : RE) (text : List Char) : Except Unit (List Char × Nat) :=
  match findFrom r text 0 with
  | none => .error ()
  | some (p, _, c) =>
      match c with
      | some (cs, ce) => .ok ((text.drop (p + cs)).take (ce - cs), p + cs)
      | none => .ok (text, 0)

/-- The per-line `loop` of `State::matches`.  The fuel argument models
nontermination: `none` means the loop did not finish (which happens exactly
when a winning match is empty and at position 0, since then the chunk never
shrinks); callers pass `chunk.length + 1`, which suffices for every
terminating run.  The `offset` accumulator is an `i32`
(`let mut offset: i32 = 0`), so `x: offset + matching.start() as i32 +
substart as i32` and `offset + matching.end() as i32` go through the wrapped
casts and additions. -/
def scanLine (pats : List (String × RE)) (y : Int) :
    Nat → List Char → Int → Option (Except Err (List M))
  | 0, _, _ => none
  | fuel + 1, chunk, offset =>
      match selectMatch pats chunk with
      | none => some (.ok [])
      | some w =>
          match emittedSpan w.re ((chunk.drop w.mstart).take w.mlen) with
          | .error _ => some (.error .noMatching)
          | .ok (subtext, substart) =>
              match scanLine pats y fuel (chunk.drop (w.mstart + w.mlen))
                  (addI32 offset (castI32 (w.mstart + w.mlen))) with
              | none => none
              | some (.error e) => some (.error e)
              | some (.ok ms) =>
                  if w.name = "bash" then some (.ok ms)
                  else some (.ok
                    (⟨addI32 (addI32 offset (castI32 w.mstart)) (castI32 substart),
                      y, subtext, none⟩ :: ms))

/-- `for (index, line) in self.lines.iter().enumerate()`: scan every line,
concatenating the per-line matches; the line index reaches the match as
`y: index as i32`, a truncating cast. -/
def scanLinesFrom (pats : List (String × RE)) : Nat → List (List Char) → Option (Except Err (List M))
  | _, [] => some (.ok [])
  | i, l :: ls =>
      match scanLine pats (castI32 i) (l.length + 1) l 0 with
      | none => none
      | some (.error e) => some (.error e)
      | some (.ok ms1) =>
          match scanLinesFrom pats (i + 1) ls with
          | none => none
          | some (.error e) => some (.error e)
          | some (.ok ms2) => some (.ok (ms1 ++ ms2))

/-- `Vec::pop`: remove and return the last element. -/
def vecPop (l : List String) : Option String × List String :=
  match l.reverse with
  | [] => (none, [])
  | h :: t => (some h, t.reverse)

/-- `HashMap::get` on the dedup map, keyed by matched text. -/
def lookupPrev (prev : List (List Char × String)) (t : List Char) : Option String :=
  match prev with
  | [] => none
  | p :: ps => if p.1 = t then some p.2 else lookupPrev ps t

/-- The non-unique assignment loop: each match pops one hint from the stack;
when the stack is empty the hint is left unchanged. -/
def assignAll : List M → List String → List M
  | [], _ => []
  | m :: ms, hints =>
      match vecPop hints with
      | (some h, rest) => { m with hint := some h } :: assignAll ms rest
      | (none, _) => m :: assignAll ms []

/-- The unique assignment loop: a text seen before reuses its stored hint,
otherwise a hint is popped and recorded; nothing is recorded when the stack is
exhausted. -/
def assignUnique : List M → List (List Char × String) → List String → List M
  | [], _, _ => []
  | m :: ms, prev, hints =>
      match lookupPrev prev m.text with
      | some h => { m with hint := some h } :: assignUnique ms prev hints
      | none =>
          match vecPop hints with
          | (some h, rest) =>
          { m with hint := some h } :: assignUnique ms ((m.text, h) :: prev) rest
          | (none, _) => m :: assignUnique ms prev []

/-- Lines 120–151 of `state.rs`: reverse the hints into a stack, optionally
reverse the match list for walking, run the assignment loop, and restore the
original order. -/
def allocate (ms : List M) (hints : List String) (rev uniq : Bool) : List M :=
  let stack := hints.reverse
  let walked := if rev then ms.reverse else ms
  let assigned := if uniq then assignUnique walked [] stack else assignAll walked stack
  if rev then assigned.reverse else assigned

/-- Modelled from the spec: the hint-allocator collaborator
(`super::alphabets::get_alphabet(id).hints(count)`, whose source is not part of
`src/`).  Per §4.3 it returns a deterministic ordered run of distinct short
labels, possibly fewer than requested; the identifier is read as the character
set itself and the model returns the single-character labels in alphabet
order, which is the behaviour the spec's `"abcd"` examples rely on. -/
def alphabetHints (alphabet : String) (n : Nat) : List String :=
  (alphabet.data.take n).map (fun c => String.mk [c])

/-- `Regex::new` over the custom pattern strings; a string that fails to
compile is represented by `none` (compilation itself belongs to the regex
collaborator), and any such entry aborts catalog construction. -/
def compileCustoms : List (Option RE) → Option (List RE)
  | [] => some []
  | none :: _ => none
  | some r :: rest => (compileCustoms rest).map (r :: ·)

/-- `State::matches`: the whole operation, from lines, alphabet id, custom
patterns and the two flags to the match list.  `none` models a diverging scan
loop, `some (.error e)` a panic. -/
def StateMatches (lines : List (List Char)) (alphabet : String)
    (customs : List (Option RE)) (rev uniq : Bool) : Option (Except Err (List M)) :=
  match compileCustoms customs with
  | none => some (.error .badPattern)
  | some cs =>
      match scanLinesFrom (allPatterns cs) 0 lines with
      | none => none
      | some (.error e) => some (.error e)
      | some (.ok ms) => some (.ok (allocate ms (alphabetHints alphabet ms.length) rev uniq))

/-- The returned order: line index, then column. -/
def leYX (a b : M) : Prop := a.y < b.y ∨ (a.y = b.y ∧ a.x ≤ b.x)

instance : DecidableRel leYX := fun a b => by
  unfold leYX
  infer_instance

/-- Does the regex contain a capture group (group 1)? -/
def hasGroup : RE → Bool
  | .cls _ => false
  | .lit _ => false
  | .alt a b => hasGroup a || hasGroup b
  | .cat a b => hasGroup a || hasGroup b
  | .group _ => true
  | .star r => hasGroup r

/-- Index of the first occurrence of `t` in a list of texts (length of the
list when absent). -/
def idxOfT (t : List Char) : List (List Char) → Nat
  | [] => 0
  | x :: xs => if x = t then 0 else idxOfT t xs + 1

/-- The distinct matched texts in first-occurrence order, skipping texts
already recorded in `dom`: the order in which the unique-mode loop pops fresh
hints. -/
def newTexts (dom : List (List Char)) : List M → List (List Char)
  | [] => []
  | m :: ms => if m.text ∈ dom then newTexts dom ms else m.text :: newTexts (m.text :: dom) ms

/-- The order `leYX` read off the hint-free projection. -/
def leP (p q : Int × Int × List Char) : Prop :=
  p.2.1 < q.2.1 ∨ (p.2.1 = q.2.1 ∧ p.1 ≤ q.1)

/-! ## Concrete inputs used by the claims -/

/-- The input line of the repository's allocation tests. -/
def loremLine : List Char :=
  "lorem 127.0.0.1 lorem 255.255.255.255 lorem 127.0.0.1 lorem".data

/-- A line whose leftmost `path` match begins before an ANSI escape and
swallows it. -/
def c3line : List Char := "x\x1b[31m/a".data

/-- The custom pattern `(foo)?bar`: a declared capture group that does not
participate when only `bar` is present. -/
def reC4 : RE := .cat (opt (.group (strR "foo"))) (strR "bar")

/-- The winning submatch of the `number` pattern on `"12345"`. -/
def subNum5 : Sub := ⟨"number", numberRE, 0, 5, none⟩

/-- The winning submatch of the `number` pattern on `"1234"`. -/
def subNum4 : Sub := ⟨"number", numberRE, 0, 4, none⟩

/-- The two matches scanned from `"a/b c/d"`. -/
def wit2 : List M := [⟨0, 0, "a/b".data, some "a"⟩, ⟨4, 0, "c/d".data, some "b"⟩]

/-- A three-match list with a repeated text, hints unset. -/
def msC5 : List M :=
  [⟨0, 0, "aa".data, none⟩, ⟨1, 0, "bb".data, none⟩, ⟨2, 0, "aa".data, none⟩]

/-- A two-match list with distinct texts, hints unset. -/
def msC7 : List M := [⟨0, 0, "u".data, none⟩, ⟨1, 0, "v".data, none⟩]

/-- `2^31 + 1` lines: a matching first line, `2^31 - 1` empty lines, and a
matching last line whose index `2^31` truncates to `-2^31` under
`index as i32`. -/
def bigLines : List (List Char) :=
  "1234".data :: (List.replicate 2147483647 [] ++ ["5678".data])

/-- The list `State::matches` returns on `bigLines`: the second match's line
index has wrapped negative. -/
def bigMs : List M :=
  [⟨0, 0, "1234".data, some "a"⟩, ⟨0, -2147483648, "5678".data, some "b"⟩]

/-! ## Basic facts about the matcher -/

/-- A literal that occurs at the front of `s` is no longer than `s`. -/
theorem litMatch_length : ∀ (cs s : List Char), litMatch cs s = true → cs.length ≤ s.length := by
  intro cs
  induction cs with
  | nil => intro s _; simp
  | cons a as ih =>
      intro s h
      cases s with
      | nil => simp [litMatch] at h
      | cons b bs =>
          simp only [litMatch, Bool.and_eq_true] at h
          simpa using ih bs h.2

/-- Bounds kept by every result of `starFuel`, assuming the iterated matcher
keeps them. -/
theorem starFuel_bounds (m : List Char → List Res)
    (hm : ∀ s x, x ∈ m s → x.1 ≤ s.length ∧
      ∀ cs ce, x.2 = some (cs, ce) → cs ≤ ce ∧ ce ≤ x.1) :
    ∀ (fuel : Nat) (s : List Char) (x : Res), x ∈ starFuel m fuel s →
      x.1 ≤ s.length ∧ ∀ cs ce, x.2 = some (cs, ce) → cs ≤ ce ∧ ce ≤ x.1 := by
  intro fuel
  induction fuel with
  | zero =>
      intro s x hx
      simp only [starFuel, List.mem_singleton] at hx
      subst hx
      exact ⟨Nat.zero_le _, by intro cs ce h; cases h⟩
  | succ f ih =>
      intro s x hx
      simp only [starFuel, List.mem_append, List.mem_singleton, List.mem_flatMap,
        List.mem_map, List.mem_filter] at hx
      rcases hx with ⟨a, ⟨ha, _⟩, y, hy, rfl⟩ | rfl
      · have hma := hm s a ha
        have hya := ih (s.drop a.1) y hy
        constructor
        · have : y.1 ≤ s.length - a.1 := by simpa [List.length_drop] using hya.1
          omega
        · intro cs ce hc
          rcases hy2 : y.2 with _ | ⟨u, v⟩
          · rw [hy2] at hc
            simp only [cshift, orO] at hc
            have := hm s a ha
            have := this.2 cs ce hc
            omega
          · rw [hy2] at hc
            simp only [cshift, orO, Option.some.injEq, Prod.mk.injEq] at hc
            obtain ⟨rfl, rfl⟩ := hc
            have := hya.2 u v hy2
            omega
      · exact ⟨Nat.zero_le _, by intro cs ce h; cases h⟩

/-- Every result of `matchL r s` consumes at most `s` and keeps its capture
span inside the consumed prefix. -/
theorem matchL_bounds : ∀ (r : RE) (s : List Char) (x : Res), x ∈ matchL r s →
    x.1 ≤ s.length ∧ ∀ cs ce, x.2 = some (cs, ce) → cs ≤ ce ∧ ce ≤ x.1 := by
  intro r
  induction r with
  | cls p =>
      intro s x hx
      cases s with
      | nil => simp [matchL] at hx
      | cons c t =>
          simp only [matchL] at hx
          by_cases hp : p c
          · simp only [hp, if_true, List.mem_singleton] at hx
            subst hx
            exact ⟨by simp, by intro cs ce h; cases h⟩
          · simp [hp] at hx
  | lit cs =>
      intro s x hx
      simp only [matchL] at hx
      by_cases hl : litMatch cs s
      · simp only [hl, if_true, List.mem_singleton] at hx
        subst hx
        exact ⟨litMatch_length cs s hl, by intro a b h; cases h⟩
      · simp [hl] at hx
  | alt r1 r2 ih1 ih2 =>
      intro s x hx
      simp only [matchL, List.mem_append] at hx
      rcases hx with h | h
      · exact ih1 s x h
      · exact ih2 s x h
  | cat r1 r2 ih1 ih2 =>
      intro s x hx
      simp only [matchL, List.mem_flatMap, List.mem_map] at hx
      obtain ⟨a, ha, y, hy, rfl⟩ := hx
      have hma := ih1 s a ha
      have hya := ih2 (s.drop a.1) y hy
      constructor
      · have : y.1 ≤ s.length - a.1 := by simpa [List.length_drop] using hya.1
        omega
      · intro cs ce hc
        rcases ha2 : a.2 with _ | ⟨u, v⟩
        · rw [ha2] at hc
          rcases hy2 : y.2 with _ | ⟨u, v⟩
          · rw [hy2] at hc; simp [cshift, orO] at hc
          · rw [hy2] at hc
            simp only [cshift, orO, Option.some.injEq, Prod.mk.injEq] at hc
            obtain ⟨rfl, rfl⟩ := hc
            have := hya.2 u v hy2
            omega
        · rw [ha2] at hc
          simp only [orO, Option.some.injEq, Prod.mk.injEq] at hc
          obtain ⟨rfl, rfl⟩ := hc
          have := hma.2 u v ha2
          omega
  | group r ih =>
      intro s x hx
      simp only [matchL, List.mem_map] at hx
      obtain ⟨a, ha, rfl⟩ := hx
      have hma := ih s a ha
      refine ⟨hma.1, ?_⟩
      intro cs ce hc
      simp only at hc
      cases hc
      omega
  | star r ih =>
      intro s x hx
      exact starFuel_bounds (matchL r) (fun s x h => ih s x h) (s.length + 1) s x hx

/-- Bounds kept by `findFrom`: the match lies inside the string and its
capture span inside the match. -/
theorem findFrom_bounds (r : RE) : ∀ (s : List Char) (i p n : Nat)
    (c : Option (Nat × Nat)), findFrom r s i = some (p, n, c) →
    i ≤ p ∧ (p - i) + n ≤ s.length ∧
      ∀ cs ce, c = some (cs, ce) → cs ≤ ce ∧ ce ≤ n := by
  intro s
  induction s with
  | nil =>
      intro i p n c h
      simp only [findFrom] at h
      rcases hm : matchL r [] with _ | ⟨x, xs⟩
      · rw [hm] at h; cases h
      · rw [hm] at h
        simp only [Option.some.injEq] at h
        obtain ⟨rfl, rfl, rfl⟩ := h
        have hb := matchL_bounds r [] x (by rw [hm]; exact List.mem_cons_self x xs)
        refine ⟨Nat.le_refl _, ?_, hb.2⟩
        simpa using hb.1
  | cons a t ih =>
      intro i p n c h
      simp only [findFrom] at h
      rcases hm : matchL r (a :: t) with _ | ⟨x, xs⟩
      · rw [hm] at h
        have := ih (i + 1) p n c h
        refine ⟨by omega, by simp only [List.length_cons]; omega, this.2.2⟩
      · rw [hm] at h
        simp only [Option.some.injEq] at h
        obtain ⟨rfl, rfl, rfl⟩ := h
        have hb := matchL_bounds r (a :: t) x (by rw [hm]; exact List.mem_cons_self x xs)
        exact ⟨Nat.le_refl _, by simpa using hb.1, hb.2⟩

/-! ## The selection step: `min_by` keeps the first minimum -/

/-- Invariant of the `min_by` fold once the accumulator holds `a`: either `a`
survives (no strictly smaller start arrives) or the result is the first
element strictly smaller than everything before it and than `a`. -/
theorem minFold_some (t : List Sub) : ∀ (a w : Sub), t.foldl minStep (some a) = some w →
    (w = a ∧ ∀ s ∈ t, a.mstart ≤ s.mstart)
    ∨ (∃ t1 t2, t = t1 ++ w :: t2 ∧ w.mstart < a.mstart
        ∧ (∀ s ∈ t1, w.mstart < s.mstart) ∧ (∀ s ∈ t, w.mstart ≤ s.mstart)) := by
  induction t with
  | nil =>
      intro a w h
      simp only [List.foldl_nil, Option.some.injEq] at h
      exact Or.inl ⟨h.symm, by simp⟩
  | cons x t ih =>
      intro a w h
      simp only [List.foldl_cons] at h
      by_cases hx : x.mstart < a.mstart
      · rw [show minStep (some a) x = some x by simp [minStep, hx]] at h
        rcases ih x w h with ⟨rfl, hle⟩ | ⟨t1, t2, rfl, hlt, hstrict, hle⟩
        · refine Or.inr ⟨[], t, rfl, hx, by simp, ?_⟩
          intro s hs
          rcases List.mem_cons.mp hs with rfl | hs
          · exact Nat.le_refl _
          · exact hle s hs
        · refine Or.inr ⟨x :: t1, t2, rfl, Nat.lt_trans hlt hx, ?_, ?_⟩
          · intro s hs
            rcases List.mem_cons.mp hs with rfl | hs
            · exact hlt
            · exact hstrict s hs
          · intro s hs
            rcases List.mem_cons.mp hs with rfl | hs
            · exact Nat.le_of_lt hlt
            · exact hle s hs
      · rw [show minStep (some a) x = some a by simp [minStep, hx]] at h
        rcases ih a w h with ⟨rfl, hle⟩ | ⟨t1, t2, rfl, hlt, hstrict, hle⟩
        · refine Or.inl ⟨rfl, ?_⟩
          intro s hs
          rcases List.mem_cons.mp hs with rfl | hs
          · exact Nat.le_of_not_lt hx
          · exact hle s hs
        · have hwx : w.mstart < x.mstart := Nat.lt_of_lt_of_le hlt (Nat.le_of_not_lt hx)
          refine Or.inr ⟨x :: t1, t2, rfl, hlt, ?_, ?_⟩
          · intro s hs
            rcases List.mem_cons.mp hs with rfl | hs
            · exact hwx
            · exact hstrict s hs
          · intro s hs
            rcases List.mem_cons.mp hs with rfl | hs
            · exact Nat.le_of_lt hwx
            · exact hle s hs

/-- `min_by` returns the first element attaining the minimal start: everything
before it in the list starts strictly later, everything in the list starts no
earlier. -/
theorem minByStart_spec (l : List Sub) (w : Sub) (h : minByStart l = some w) :
    ∃ l1 l2, l = l1 ++ w :: l2
      ∧ (∀ s ∈ l1, w.mstart < s.mstart) ∧ (∀ s ∈ l, w.mstart ≤ s.mstart) := by
  cases l with
  | nil => simp [minByStart] at h
  | cons x t =>
      have h' : t.foldl minStep (some x) = some w := by
        simpa [minByStart, minStep] using h
      rcases minFold_some t x w h' with ⟨rfl, hle⟩ | ⟨t1, t2, rfl, hwx, hstrict, hle⟩
      · refine ⟨[], t, rfl, by simp, ?_⟩
        intro s hs
        rcases List.mem_cons.mp hs with rfl | hs
        · exact Nat.le_refl _
        · exact hle s hs
      · refine ⟨x :: t1, t2, rfl, ?_, ?_⟩
        · intro s hs
          rcases List.mem_cons.mp hs with rfl | hs
          · exact hwx
          · exact hstrict s hs
        · intro s hs
          rcases List.mem_cons.mp hs with rfl | hs
          · exact Nat.le_of_lt hwx
          · exact hle s hs

/-- The winner of a selection step occurs in the submatch vector. -/
theorem minByStart_mem {l : List Sub} {w : Sub} (h : minByStart l = some w) : w ∈ l := by
  obtain ⟨l1, l2, rfl, -, -⟩ := minByStart_spec l w h
  exact List.mem_append.mpr (Or.inr (List.mem_cons_self w l2))

/-- An entry of the submatch vector records a pattern of the catalog together
with that pattern's first match in the chunk. -/
theorem submatches_mem {pats : List (String × RE)} {chunk : List Char} {w : Sub}
    (h : w ∈ submatches pats chunk) :
    ∃ p ∈ pats, p.1 = w.name ∧ p.2 = w.re
      ∧ findFrom w.re chunk 0 = some (w.mstart, w.mlen, w.cap) := by
  unfold submatches at h
  rw [List.mem_filterMap] at h
  obtain ⟨p, hp, he⟩ := h
  rcases hf : findFrom p.2 chunk 0 with _ | m
  · rw [hf] at he; cases he
  · rw [hf] at he
    have he' : (⟨p.1, p.2, m.1, m.2.1, m.2.2⟩ : Sub) = w := by
      simpa using he
    subst he'
    exact ⟨p, hp, rfl, rfl, hf⟩

/-! ## The scan loop only moves forward -/

/-- The span emitted for a winning match starts inside the match: the capture
offset never exceeds the match length. -/
theorem emittedSpan_le {r : RE} {text subtext : List Char} {substart : Nat}
    (h : emittedSpan r text = .ok (subtext, substart)) : substart ≤ text.length := by
  unfold emittedSpan at h
  rcases hf : findFrom r text 0 with _ | ⟨pp, nn, cc⟩
  · rw [hf] at h; cases h
  · rw [hf] at h
    have hb := findFrom_bounds r text 0 pp nn cc hf
    rcases cc with _ | ⟨cs, ce⟩
    · simp only [Except.ok.injEq, Prod.mk.injEq] at h
      obtain ⟨-, rfl⟩ := h
      exact Nat.zero_le _
    · simp only [Except.ok.injEq, Prod.mk.injEq] at h
      obtain ⟨-, rfl⟩ := h
      have hc := hb.2.2 cs ce rfl
      omega

/-- `wrap32` is the identity on values already inside the `i32` range. -/
theorem wrap32_eq_self {n : Int} (h1 : -2147483648 ≤ n) (h2 : n < 2147483648) :
    wrap32 n = n := by
  unfold wrap32
  rw [Int.emod_eq_of_lt (by omega) (by omega)]
  omega

/-- The `usize → i32` cast is exact below `2^31`. -/
theorem castI32_eq_self {n : Nat} (h : n < 2147483648) : castI32 n = (n : Int) := by
  unfold castI32
  exact wrap32_eq_self (by omega) (by omega)

/-- An `i32` addition whose true sum is in range computes the true sum. -/
theorem addI32_eq_self {a b : Int} (h1 : -2147483648 ≤ a + b) (h2 : a + b < 2147483648) :
    addI32 a b = a + b := by
  unfold addI32
  exact wrap32_eq_self h1 h2

/-- Matches produced by one line scan carry the line's index and
nondecreasing columns, all at or after the running offset — provided the
offset plus the remaining chunk stays below `2^31`, so that no `i32`
cast or addition wraps. -/
theorem scanLine_ok (pats : List (String × RE)) (y : Int) :
    ∀ (fuel : Nat) (chunk : List Char) (offset : Int) (ms : List M),
      0 ≤ offset → offset + chunk.length < 2147483648 →
      scanLine pats y fuel chunk offset = some (.ok ms) →
      (∀ m ∈ ms, m.y = y ∧ offset ≤ m.x) ∧ ms.Pairwise (fun a b => a.x ≤ b.x) := by
  intro fuel
  induction fuel with
  | zero =>
      intro chunk offset ms _ _ h
      simp [scanLine] at h
  | succ f ih =>
      intro chunk offset ms hoff hrange h
      rw [scanLine] at h
      rcases hsel : selectMatch pats chunk with _ | w
      · rw [hsel] at h
        simp only [Option.some.injEq, Except.ok.injEq] at h
        subst h
        exact ⟨by simp, List.Pairwise.nil⟩
      · rw [hsel] at h
        simp only [] at h
        obtain ⟨p, hp, hname, hre, hfind⟩ :=
          submatches_mem (minByStart_mem (show minByStart (submatches pats chunk) = some w from hsel))
        have hb := findFrom_bounds w.re chunk 0 w.mstart w.mlen w.cap hfind
        have hmm : w.mstart + w.mlen ≤ chunk.length := by
          have := hb.2.1
          omega
        have htlen : ((chunk.drop w.mstart).take w.mlen).length = w.mlen := by
          simp only [List.length_take, List.length_drop]
          omega
        rcases hspan : emittedSpan w.re ((chunk.drop w.mstart).take w.mlen) with e | ⟨subtext, substart⟩
        · rw [hspan] at h
          simp at h
        · rw [hspan] at h
          have hsub : substart ≤ w.mlen := htlen ▸ emittedSpan_le hspan
          have ex : addI32 (addI32 offset (castI32 w.mstart)) (castI32 substart)
              = offset + (w.mstart : Int) + (substart : Int) := by
            rw [@castI32_eq_self w.mstart (by omega), @castI32_eq_self substart (by omega)]
            have e3 : addI32 offset ((w.mstart : Int)) = offset + (w.mstart : Int) :=
              @addI32_eq_self offset ((w.mstart : Nat) : Int) (by omega) (by omega)
            rw [e3]
            exact @addI32_eq_self (offset + ((w.mstart : Nat) : Int)) ((substart : Nat) : Int)
              (by omega) (by omega)
          have eoff : addI32 offset (castI32 (w.mstart + w.mlen))
              = offset + ((w.mstart + w.mlen : Nat) : Int) := by
            rw [@castI32_eq_self (w.mstart + w.mlen) (by omega)]
            exact @addI32_eq_self offset (((w.mstart + w.mlen : Nat)) : Int) (by omega) (by omega)
          rcases hrec : scanLine pats y f (chunk.drop (w.mstart + w.mlen))
              (addI32 offset (castI32 (w.mstart + w.mlen))) with _ | ex2
          · rw [hrec] at h; simp at h
          · rw [hrec] at h
            rcases ex2 with e | ms'
            · simp at h
            · simp only [] at h
              obtain ⟨hall, hpair⟩ := ih (chunk.drop (w.mstart + w.mlen))
                (addI32 offset (castI32 (w.mstart + w.mlen))) ms'
                (by rw [eoff]; omega)
                (by rw [eoff, List.length_drop]; omega)
                hrec
              rw [eoff] at hall
              by_cases hbash : w.name = "bash"
              · rw [if_pos hbash] at h
                simp only [Option.some.injEq, Except.ok.injEq] at h
                subst h
                refine ⟨?_, hpair⟩
                intro m hm
                have := hall m hm
                refine ⟨this.1, ?_⟩
                have h0 : (0 : Int) ≤ ((w.mstart + w.mlen : Nat) : Int) := Int.natCast_nonneg _
                omega
              · rw [if_neg hbash] at h
                simp only [Option.some.injEq, Except.ok.injEq] at h
                subst h
                constructor
                · intro m hm
                  rcases List.mem_cons.mp hm with rfl | hm
                  · refine ⟨rfl, ?_⟩
                    simp only
                    rw [ex]
                    have h1 : (0 : Int) ≤ (w.mstart : Int) := Int.natCast_nonneg _
                    have h2 : (0 : Int) ≤ (substart : Int) := Int.natCast_nonneg _
                    omega
                  · have := hall m hm
                    refine ⟨this.1, ?_⟩
                    have h0 : (0 : Int) ≤ ((w.mstart + w.mlen : Nat) : Int) := Int.natCast_nonneg _
                    omega
                · refine List.pairwise_cons.mpr ⟨?_, hpair⟩
                  intro m hm
                  have hx := (hall m hm).2
                  simp only
                  rw [ex]
                  have hcast : ((w.mstart : Int) + (substart : Int)) ≤ ((w.mstart + w.mlen : Nat) : Int) := by
                    push_cast
                    omega
                  omega

/-- The flat match list of the whole scan is sorted by line, then column, and
all its line indices are at or beyond the starting index — provided the last
line index stays below `2^31` and every line is shorter than `2^31`, so that
no `i32` coordinate wraps. -/
theorem scanLines_ok (pats : List (String × RE)) :
    ∀ (lines : List (List Char)) (i : Nat) (ms : List M),
      i + lines.length ≤ 2147483648 →
      (∀ l ∈ lines, l.length < 2147483648) →
      scanLinesFrom pats i lines = some (.ok ms) →
      (∀ m ∈ ms, (i : Int) ≤ m.y) ∧ ms.Pairwise leYX := by
  intro lines
  induction lines with
  | nil =>
      intro i ms _ _ h
      simp only [scanLinesFrom, Option.some.injEq, Except.ok.injEq] at h
      subst h
      exact ⟨by simp, List.Pairwise.nil⟩
  | cons l ls ih =>
      intro i ms hcount hlens h
      have hcount' : i + (ls.length + 1) ≤ 2147483648 := by
        simpa [List.length_cons] using hcount
      have hi32 : castI32 i = (i : Int) := @castI32_eq_self i (by omega)
      rw [scanLinesFrom] at h
      rcases h1 : scanLine pats (castI32 i) (l.length + 1) l 0 with _ | ex1
      · rw [h1] at h; simp at h
      · rw [h1] at h
        rcases ex1 with e | ms1
        · simp at h
        · simp only [] at h
          rcases h2 : scanLinesFrom pats (i + 1) ls with _ | ex2
          · rw [h2] at h; simp at h
          · rw [h2] at h
            rcases ex2 with e | ms2
            · simp at h
            · simp only [Option.some.injEq, Except.ok.injEq] at h
              subst h
              obtain ⟨hall1, hpair1⟩ := scanLine_ok pats (castI32 i) (l.length + 1) l 0 ms1
                (Int.le_refl 0)
                (by have := hlens l (List.mem_cons_self l ls); omega)
                h1
              rw [hi32] at hall1
              obtain ⟨hall2, hpair2⟩ := ih (i + 1) ms2 (by omega)
                (fun l' hl' => hlens l' (List.mem_cons_of_mem _ hl')) h2
              constructor
              · intro m hm
                rcases List.mem_append.mp hm with hm | hm
                · exact Int.le_of_eq ((hall1 m hm).1).symm
                · have := hall2 m hm
                  have hci : ((i : Int)) ≤ ((i + 1 : Nat) : Int) := by push_cast; omega
                  omega
              · rw [List.pairwise_append]
                refine ⟨?_, hpair2, ?_⟩
                · refine List.Pairwise.imp_of_mem ?_ hpair1
                  intro a b ha hb hr
                  exact Or.inr ⟨by rw [(hall1 a ha).1, (hall1 b hb).1], hr⟩
                · intro a ha b hb
                  have hya := (hall1 a ha).1
                  have hyb := hall2 b hb
                  have : ((i : Int)) + 1 ≤ b.y := by push_cast at hyb ⊢; omega
                  exact Or.inl (by omega)

/-- Unfolding one line of the scan when both the line and the remaining lines
succeed. -/
theorem scanLinesFrom_cons_ok {pats : List (String × RE)} {i : Nat} {l : List Char}
    {ls : List (List Char)} {ms1 ms2 : List M}
    (h1 : scanLine pats (castI32 i) (l.length + 1) l 0 = some (.ok ms1))
    (h2 : scanLinesFrom pats (i + 1) ls = some (.ok ms2)) :
    scanLinesFrom pats i (l :: ls) = some (.ok (ms1 ++ ms2)) := by
  rw [scanLinesFrom, h1]
  simp only []
  rw [h2]

/-- The scan of concatenated line blocks concatenates their matches, the
second block starting at the shifted index. -/
theorem scanLinesFrom_append {pats : List (String × RE)} :
    ∀ (xs ys : List (List Char)) (i : Nat) (ms1 ms2 : List M),
      scanLinesFrom pats i xs = some (.ok ms1) →
      scanLinesFrom pats (i + xs.length) ys = some (.ok ms2) →
      scanLinesFrom pats i (xs ++ ys) = some (.ok (ms1 ++ ms2)) := by
  intro xs
  induction xs with
  | nil =>
      intro ys i ms1 ms2 h1 h2
      simp only [scanLinesFrom, Option.some.injEq, Except.ok.injEq] at h1
      subst h1
      simpa using h2
  | cons l xs ih =>
      intro ys i ms1 ms2 h1 h2
      rw [scanLinesFrom] at h1
      rcases hl : scanLine pats (castI32 i) (l.length + 1) l 0 with _ | ex1
      · rw [hl] at h1; simp at h1
      · rw [hl] at h1
        rcases ex1 with e | msa
        · simp at h1
        · simp only [] at h1
          rcases hr : scanLinesFrom pats (i + 1) xs with _ | ex2
          · rw [hr] at h1; simp at h1
          · rw [hr] at h1
            rcases ex2 with e | msb
            · simp at h1
            · simp only [Option.some.injEq, Except.ok.injEq] at h1
              subst h1
              have h2' : scanLinesFrom pats ((i + 1) + xs.length) ys = some (.ok ms2) := by
                have he : (i + 1) + xs.length = i + (l :: xs).length := by
                  simp [List.length_cons]
                  omega
                rw [he]
                exact h2
              have hrest := ih ys (i + 1) msb ms2 hr h2'
              have hres := scanLinesFrom_cons_ok hl hrest
              rw [List.append_assoc]
              exact hres

/-- When the customs compile and the scan succeeds, `State::matches` returns
the allocation of the scanned matches. -/
theorem StateMatches_eq_allocate (lines : List (List Char)) (alphabet : String)
    (customs : List (Option RE)) (cs : List RE) (rev uniq : Bool) (ms0 : List M)
    (hc : compileCustoms customs = some cs)
    (hs : scanLinesFrom (allPatterns cs) 0 lines = some (.ok ms0)) :
    StateMatches lines alphabet customs rev uniq
      = some (.ok (allocate ms0 (alphabetHints alphabet ms0.length) rev uniq)) := by
  rw [StateMatches, hc]
  simp only []
  rw [hs]

/-- Empty lines scan to no matches, whatever their indices. -/
theorem scanLinesFrom_replicate_nil : ∀ (k i : Nat),
    scanLinesFrom (allPatterns []) i (List.replicate k []) = some (.ok ([] : List M)) := by
  intro k
  induction k with
  | zero => intro i; rfl
  | succ k ih =>
      intro i
      have h1 : scanLine (allPatterns []) (castI32 i) (([] : List Char).length + 1) [] 0
          = some (.ok ([] : List M)) := by
        rw [scanLine]
        rw [show selectMatch (allPatterns []) [] = none from rfl]
      have := scanLinesFrom_cons_ok h1 (ih (i + 1))
      simpa [List.replicate_succ] using this

/-! ## The allocation pass leaves position and text untouched -/

/-- The non-unique assignment loop only writes hints. -/
theorem assignAll_proj : ∀ (ms : List M) (stack : List String),
    (assignAll ms stack).map projM = ms.map projM := by
  intro ms
  induction ms with
  | nil => intro stack; rfl
  | cons m ms ih =>
      intro stack
      rw [assignAll]
      rcases hv : vecPop stack with ⟨ho, rest⟩
      rcases ho with _ | h
      · simp only [List.map_cons, ih, projM]
      · simp only [List.map_cons, ih, projM]

/-- The unique assignment loop only writes hints. -/
theorem assignUnique_proj : ∀ (ms : List M) (prev : List (List Char × String))
    (stack : List String), (assignUnique ms prev stack).map projM = ms.map projM := by
  intro ms
  induction ms with
  | nil => intro prev stack; rfl
  | cons m ms ih =>
      intro prev stack
      rw [assignUnique]
      rcases hl : lookupPrev prev m.text with _ | h
      · rcases hv : vecPop stack with ⟨ho, rest⟩
        rcases ho with _ | h
        · simp only [List.map_cons, ih, projM]
        · simp only [List.map_cons, ih, projM]
      · simp only [List.map_cons, ih, projM]

/-- The whole allocation phase (including the walking reversal and its
restoration) only writes hints: positions, line indices and texts of the
returned list agree with the scanned list. -/
theorem allocate_proj (ms : List M) (hints : List String) (rev uniq : Bool) :
    (allocate ms hints rev uniq).map projM = ms.map projM := by
  unfold allocate
  cases rev <;> cases uniq <;>
    simp [assignAll_proj, assignUnique_proj, List.map_reverse]

/-- `leYX`-sortedness transfers along equal hint-free projections. -/
theorem pairwise_of_proj_eq {ms1 ms2 : List M}
    (hp : ms1.map projM = ms2.map projM) (h : ms1.Pairwise leYX) :
    ms2.Pairwise leYX := by
  have h1 : (ms1.map projM).Pairwise leP := by
    rw [List.pairwise_map]
    exact h.imp_of_mem (fun _ _ hr => hr)
  rw [hp, List.pairwise_map] at h1
  exact h1.imp_of_mem (fun _ _ hr => hr)

/-! ## Hint values produced by the two assignment loops -/

/-- Popping the stack `hints.reverse` walks `hints` front to back. -/
theorem vecPop_reverse (hs : List String) :
    vecPop hs.reverse = (hs.head?, hs.tail.reverse) := by
  cases hs with
  | nil => rfl
  | cons h t =>
      rw [vecPop, List.reverse_reverse]
      rfl

/-- In the non-unique loop over the stack `hs.reverse`, the `i`-th walked
match receives the `i`-th hint of `hs`, and keeps its hint once `hs` is
exhausted. -/
theorem assignAll_get : ∀ (ms : List M) (hs : List String) (i : Nat),
    ((assignAll ms hs.reverse).get? i).map M.hint
      = (ms.get? i).map (fun m => orO (hs.get? i) m.hint) := by
  intro ms
  induction ms with
  | nil => intro hs i; simp [assignAll]
  | cons m ms ih =>
      intro hs i
      rw [assignAll, vecPop_reverse hs]
      cases hs with
      | nil =>
          cases i with
          | zero => simp [orO]
          | succ i =>
              simpa using ih [] i
      | cons h t =>
          cases i with
          | zero => simp [orO]
          | succ i =>
              simpa using ih t i

/-- The dedup map misses a text exactly when the text is not among its keys. -/
theorem lookupPrev_eq_none (prev : List (List Char × String)) (t : List Char) :
    lookupPrev prev t = none ↔ t ∉ prev.map Prod.fst := by
  induction prev with
  | nil => simp [lookupPrev]
  | cons p ps ih =>
      rw [lookupPrev]
      by_cases hp : p.1 = t
      · simp [hp]
      · simp only [hp, if_false, List.map_cons, List.mem_cons, ih]
        constructor
        · intro hn hc
          rcases hc with hc | hc
          · exact hp hc.symm
          · exact hn hc
        · intro hn
          exact fun hc => hn (Or.inr hc)

/-- In the unique loop, a match's hint is determined by the dedup map and by
the rank of its text among the new texts in first-occurrence order: the
`k`-th fresh text takes the `k`-th remaining hint of the stack (read front to
back in original hint order), and nothing changes once the stack is empty. -/
theorem assignUnique_get : ∀ (ms : List M) (prev : List (List Char × String))
    (stack : List String) (i : Nat), (∀ m ∈ ms, m.hint = none) →
    ((assignUnique ms prev stack).get? i).map M.hint
      = (ms.get? i).map (fun m =>
          match lookupPrev prev m.text with
          | some h => some h
          | none => (stack.reverse).get? (idxOfT m.text (newTexts (prev.map Prod.fst) ms))) := by
  intro ms
  induction ms with
  | nil => intro prev stack i _; simp [assignUnique]
  | cons m ms ih =>
      intro prev stack i hnone
      have hnone' : ∀ m' ∈ ms, m'.hint = none :=
        fun m' hm' => hnone m' (List.mem_cons_of_mem _ hm')
      rcases hl : lookupPrev prev m.text with _ | h
      · have hdom : m.text ∉ prev.map Prod.fst := (lookupPrev_eq_none prev m.text).mp hl
        have hnew : newTexts (prev.map Prod.fst) (m :: ms)
            = m.text :: newTexts (m.text :: prev.map Prod.fst) ms := by
          rw [newTexts, if_neg hdom]
        rcases hsr : stack.reverse with _ | ⟨h, t⟩
        · have hstack : stack = [] := by
            have := congrArg List.reverse hsr
            simpa using this
          subst hstack
          have heq : assignUnique (m :: ms) prev [] = m :: assignUnique ms prev [] := by
            rw [assignUnique, hl]
            rfl
          rw [heq]
          cases i with
          | zero =>
              simp [hl, hnone m (List.mem_cons_self m ms)]
          | succ i =>
              rw [List.get?_cons_succ, List.get?_cons_succ, ih prev [] i hnone']
              cases hmi : ms.get? i with
              | none => rfl
              | some mi =>
                  simp only [Option.map_some']
                  rcases hlm : lookupPrev prev mi.text with _ | h'
                  · simp [hlm]
                  · simp [hlm]
        · have hv : vecPop stack = (some h, t.reverse) := by
            rw [vecPop, hsr]
          have heq : assignUnique (m :: ms) prev stack
              = { m with hint := some h } :: assignUnique ms ((m.text, h) :: prev) t.reverse := by
            rw [assignUnique, hl, hv]
          rw [heq]
          cases i with
          | zero =>
              rw [List.get?_cons_zero, List.get?_cons_zero]
              simp [hl, hnew, hsr, idxOfT]
          | succ i =>
              rw [List.get?_cons_succ, List.get?_cons_succ,
                ih ((m.text, h) :: prev) t.reverse i hnone']
              cases hmi : ms.get? i with
              | none => rfl
              | some mi =>
                  simp only [Option.map_some']
                  by_cases he : m.text = mi.text
                  · rw [show lookupPrev ((m.text, h) :: prev) mi.text = some h by
                      rw [lookupPrev, if_pos he]]
                    rw [show lookupPrev prev mi.text = none from he ▸ hl]
                    simp [hnew, hsr, idxOfT, if_pos he]
                  · rw [show lookupPrev ((m.text, h) :: prev) mi.text = lookupPrev prev mi.text by
                      rw [lookupPrev, if_neg he]]
                    rcases hlm : lookupPrev prev mi.text with _ | h'
                    · simp [hlm, hnew, hsr, idxOfT, if_neg he]
                    · simp [hlm]
      · have hmem : m.text ∈ prev.map Prod.fst := by
          by_contra hc
          rw [← lookupPrev_eq_none] at hc
          rw [hc] at hl
          cases hl
        have hnew : newTexts (prev.map Prod.fst) (m :: ms) = newTexts (prev.map Prod.fst) ms := by
          rw [newTexts, if_pos hmem]
        have heq : assignUnique (m :: ms) prev stack
            = { m with hint := some h } :: assignUnique ms prev stack := by
          rw [assignUnique, hl]
        rw [heq]
        cases i with
        | zero =>
            simp [hl]
        | succ i =>
            rw [List.get?_cons_succ, List.get?_cons_succ, ih prev stack i hnone', hnew]

/-! ## Termination of the scan loop -/

/-- With fuel exceeding the chunk length, the scan loop finishes whenever no
pattern of the catalog has an empty leftmost match in any suffix of the
chunk: every iteration advances past the winning match's end, which then
strictly shortens the remainder. -/
theorem scanLine_total (pats : List (String × RE)) (y : Int) :
    ∀ (fuel : Nat) (chunk : List Char) (offset : Int),
      chunk.length < fuel →
      (∀ s ∈ chunk.tails, ∀ p ∈ pats,
        Option.all (fun m => decide (0 < m.2.1)) (findFrom p.2 s 0) = true) →
      scanLine pats y fuel chunk offset ≠ none := by
  intro fuel
  induction fuel with
  | zero =>
      intro chunk offset hlen _
      exact absurd hlen (Nat.not_lt_zero _)
  | succ f ih =>
      intro chunk offset hlen hemp
      rw [scanLine]
      rcases hsel : selectMatch pats chunk with _ | w
      · simp
      · simp only []
        obtain ⟨p, hp, hname, hre, hfind⟩ :=
          submatches_mem (minByStart_mem (show minByStart (submatches pats chunk) = some w from hsel))
        have hb := findFrom_bounds w.re chunk 0 w.mstart w.mlen w.cap hfind
        have hself : chunk ∈ chunk.tails := (List.mem_tails chunk chunk).mpr (List.suffix_refl _)
        have hall := hemp chunk hself p hp
        rw [hre, hfind] at hall
        have hml : 0 < w.mlen := by simpa using hall
        rcases hspan : emittedSpan w.re ((chunk.drop w.mstart).take w.mlen) with e | pr
        · simp
        · rcases pr with ⟨subtext, substart⟩
          have hlen' : (chunk.drop (w.mstart + w.mlen)).length < f := by
            rw [List.length_drop]
            omega
          have hemp' : ∀ s ∈ (chunk.drop (w.mstart + w.mlen)).tails, ∀ p ∈ pats,
              Option.all (fun m => decide (0 < m.2.1)) (findFrom p.2 s 0) = true := by
            intro s hs p' hp'
            have hsfx : s <:+ chunk :=
              ((List.mem_tails s _).mp hs).trans (List.drop_suffix _ _)
            exact hemp s ((List.mem_tails s chunk).mpr hsfx) p' hp'
          have hne := ih (chunk.drop (w.mstart + w.mlen))
            (addI32 offset (castI32 (w.mstart + w.mlen))) hlen' hemp'
          rcases hrec : scanLine pats y f (chunk.drop (w.mstart + w.mlen))
              (addI32 offset (castI32 (w.mstart + w.mlen))) with _ | ex
          · exact absurd hrec hne
          · rcases ex with e | ms
            · simp
            · simp only []
              by_cases hbash : w.name = "bash"
              · rw [if_pos hbash]; simp
              · rw [if_neg hbash]; simp

/-! ## The claims -/

/-- C1: In each scan step, among all patterns with a match in the remaining
suffix (the submatch vector, listed in Catalog order: exclusion patterns, then
custom patterns in supplied order, then built-ins in their fixed order), the
winner is the first entry attaining the earliest start: every entry listed
before it starts strictly later, and no entry starts earlier. -/
theorem C1_winner_first_minimal (customs : List RE) (chunk : List Char) (w : Sub)
    (h : selectMatch (allPatterns customs) chunk = some w) :
    ∃ l1 l2, submatches (allPatterns customs) chunk = l1 ++ w :: l2
      ∧ (∀ s ∈ l1, w.mstart < s.mstart)
      ∧ (∀ s ∈ submatches (allPatterns customs) chunk, w.mstart ≤ s.mstart) :=
  minByStart_spec _ w h

/-- Witness for C1: on `"12345"` the `number` pattern wins the selection. -/
theorem C1_witness :
    selectMatch (allPatterns []) ("12345".data) = some subNum5
    ∧ ∃ l1 l2, submatches (allPatterns []) ("12345".data) = l1 ++ subNum5 :: l2
      ∧ (∀ s ∈ l1, subNum5.mstart < s.mstart)
      ∧ (∀ s ∈ submatches (allPatterns []) ("12345".data), subNum5.mstart ≤ s.mstart) :=
  ⟨rfl, C1_winner_first_minimal [] ("12345".data) subNum5 rfl⟩

/-- Counterexample to C2 as stated: on `2^31 + 1` lines — `"1234"`, then
`2^31 - 1` empty lines, then `"5678"` — the `index as i32` cast truncates the
last line's index to `-2^31`, so the returned list has `y` values `0` and
`-2^31` in that order and sorting it by `(y, x)` changes it.  No `i32`
addition overflows on this input, only the cast truncates, so every Rust
build profile agrees. -/
theorem C2_counterexample :
    StateMatches bigLines "abcd" [] false false = some (.ok bigMs)
    ∧ List.insertionSort leYX bigMs ≠ bigMs := by
  constructor
  · have h1 : scanLine (allPatterns []) (castI32 0) (("1234".data).length + 1) ("1234".data) 0
        = some (.ok [⟨0, 0, "1234".data, none⟩]) := rfl
    have h58 : scanLinesFrom (allPatterns []) (1 + 2147483647) ["5678".data]
        = some (.ok [⟨0, -2147483648, "5678".data, none⟩]) := by
      have he : (1 + 2147483647 : Nat) = 2147483648 := by norm_num
      rw [he]
      rfl
    have hrest : scanLinesFrom (allPatterns []) 1 (List.replicate 2147483647 [] ++ ["5678".data])
        = some (.ok (([] : List M) ++ [⟨0, -2147483648, "5678".data, none⟩])) := by
      refine scanLinesFrom_append _ _ _ _ _ (scanLinesFrom_replicate_nil 2147483647 1) ?_
      rw [List.length_replicate]
      exact h58
    have hscan : scanLinesFrom (allPatterns []) 0 bigLines
        = some (.ok ([⟨0, 0, "1234".data, none⟩]
            ++ (([] : List M) ++ [⟨0, -2147483648, "5678".data, none⟩]))) :=
      scanLinesFrom_cons_ok h1 hrest
    rw [StateMatches_eq_allocate bigLines "abcd" [] [] false false _ rfl hscan]
    rfl
  · decide

/-- C2 amended: whenever `State::matches` returns a list on an input with at
most `2^31` lines, each shorter than `2^31` characters — so that no `i32`
coordinate cast or addition wraps — that list is already sorted by `(y, x)`:
sorting it changes nothing, for both flags, the walking reversal being undone
before returning.  (Beyond that range the wrapping casts can make a
coordinate negative and the returned list unsorted.) -/
theorem C2_returned_sorted (lines : List (List Char)) (alphabet : String)
    (customs : List (Option RE)) (rev uniq : Bool) (ms : List M)
    (hlines : lines.length ≤ 2147483648)
    (hlens : ∀ l ∈ lines, l.length < 2147483648)
    (h : StateMatches lines alphabet customs rev uniq = some (.ok ms)) :
    List.insertionSort leYX ms = ms := by
  rw [StateMatches] at h
  rcases hc : compileCustoms customs with _ | cs
  · rw [hc] at h; simp at h
  · rw [hc] at h
    simp only [] at h
    rcases hs : scanLinesFrom (allPatterns cs) 0 lines with _ | ex
    · rw [hs] at h; simp at h
    · rw [hs] at h
      rcases ex with e | ms0
      · simp at h
      · simp only [Option.some.injEq, Except.ok.injEq] at h
        subst h
        obtain ⟨-, hpair⟩ := scanLines_ok (allPatterns cs) lines 0 ms0 (by omega) hlens hs
        have hsorted : (allocate ms0 (alphabetHints alphabet ms0.length) rev uniq).Pairwise leYX :=
          pairwise_of_proj_eq (allocate_proj ms0 (alphabetHints alphabet ms0.length) rev uniq).symm hpair
        exact List.Sorted.insertionSort_eq hsorted

/-- Witness for C2's amended statement: the two path matches of `"a/b c/d"`
(one line, 7 characters, well inside the `i32` range) come back sorted. -/
theorem C2_witness :
    ([("a/b c/d".data)] : List (List Char)).length ≤ 2147483648
    ∧ (∀ l ∈ ([("a/b c/d".data)] : List (List Char)), l.length < 2147483648)
    ∧ StateMatches ["a/b c/d".data] "abcd" [] false false = some (.ok wit2)
    ∧ List.insertionSort leYX wit2 = wit2 :=
  ⟨by decide, by decide, rfl,
    C2_returned_sorted ["a/b c/d".data] "abcd" [] false false wit2 (by decide) (by decide) rfl⟩

/-- Counterexample to C3 as stated: on the line `"x\x1b[31m/a"` the scanner
returns exactly one match whose text is the whole line — the path pattern's
leftmost match begins at column 0, before the escape, wins the contest, and
its emitted text contains the ANSI escape `"\x1b[31m"`, which the exclusion
pattern matches (at offset 1, length 5, inside the returned text). -/
theorem C3_counterexample :
    (StateMatches [c3line] "abcd" [] false false).map (Except.map (List.map projM))
      = some (.ok [((0 : Int), (0 : Int), c3line)])
    ∧ findFrom bashRE c3line 0 = some (1, 5, none) :=
  ⟨rfl, rfl⟩

/-- C3 amended: exclusion matches are consumed through the same leftmost
contest, so on lines consisting of a path wrapped in ANSI colour escapes the
scanner emits exactly one match per line — the path, free of the escapes
(escape bytes can still appear inside a returned text when a higher-priority
match starts before the escape). -/
theorem C3_amended_escape_consumed :
    (StateMatches ["path: \x1b[32m/var/log/nginx.log\x1b[m".data,
        "path: \x1b[32mtest/log/nginx.log\x1b[m".data] "abcd" [] false false).map
      (Except.map (List.map projM))
      = some (.ok [((11 : Int), (0 : Int), "/var/log/nginx.log".data),
          ((11 : Int), (1 : Int), "test/log/nginx.log".data)]) :=
  rfl

/-- Counterexample to C4 as stated: the custom pattern `(foo)?bar` declares a
capture group; on the line `"bar"` it wins and its group does not participate
(the re-match yields no group-1 span), yet scanning does not abort — the
whole match `"bar"` is emitted as an ordinary match. -/
theorem C4_counterexample :
    hasGroup reC4 = true
    ∧ findFrom reC4 ("bar".data) 0 = some (0, 3, none)
    ∧ StateMatches ["bar".data] "abcd" [some reC4] false false
        = some (.ok [⟨0, 0, "bar".data, some "a"⟩]) :=
  ⟨rfl, rfl, rfl⟩

/-- C4 amended: the internal-error abort (`panic!("No matching?")`) fires
exactly when the winning pattern, re-run on its own matched text, finds no
match at all; a declared capture group that merely did not participate is not
an error — the step emits the whole matched text with capture offset 0. -/
theorem C4_amended_capture_fallback (pats : List (String × RE)) (y : Int) (fuel : Nat)
    (chunk : List Char) (offset : Int) (w : Sub)
    (hsel : selectMatch pats chunk = some w) :
    (findFrom w.re ((chunk.drop w.mstart).take w.mlen) 0 = none →
      scanLine pats y (fuel + 1) chunk offset = some (.error .noMatching))
    ∧ (∀ p n, findFrom w.re ((chunk.drop w.mstart).take w.mlen) 0 = some (p, n, none) →
        w.name ≠ "bash" →
        scanLine pats y (fuel + 1) chunk offset =
          (match scanLine pats y fuel (chunk.drop (w.mstart + w.mlen))
              (addI32 offset (castI32 (w.mstart + w.mlen))) with
            | none => none
            | some (.error e) => some (.error e)
            | some (.ok ms) => some (.ok
                (⟨addI32 (addI32 offset (castI32 w.mstart)) (castI32 0), y,
                  (chunk.drop w.mstart).take w.mlen, none⟩ :: ms)))) := by
  constructor
  · intro hf
    rw [scanLine, hsel]
    simp only []
    rw [show emittedSpan w.re ((chunk.drop w.mstart).take w.mlen) = .error () by
      rw [emittedSpan, hf]]
  · intro p n hf hbash
    rw [scanLine, hsel]
    simp only []
    rw [show emittedSpan w.re ((chunk.drop w.mstart).take w.mlen)
        = .ok ((chunk.drop w.mstart).take w.mlen, 0) by rw [emittedSpan, hf]]
    simp only []
    rcases hrec : scanLine pats y fuel (chunk.drop (w.mstart + w.mlen))
        (addI32 offset (castI32 (w.mstart + w.mlen))) with _ | ex
    · rfl
    · rcases ex with e | ms
      · rfl
      · simp [hbash]

/-- Witness for C4's amended statement: instantiated on `"1234"`, where the
`number` pattern (no capture group participating) wins. -/
theorem C4_witness :
    selectMatch (allPatterns []) ("1234".data) = some subNum4
    ∧ ((findFrom subNum4.re ((("1234".data).drop subNum4.mstart).take subNum4.mlen) 0 = none →
        scanLine (allPatterns []) 0 (3 + 1) ("1234".data) 0 = some (.error .noMatching))
      ∧ (∀ p n, findFrom subNum4.re ((("1234".data).drop subNum4.mstart).take subNum4.mlen) 0
            = some (p, n, none) →
          subNum4.name ≠ "bash" →
          scanLine (allPatterns []) 0 (3 + 1) ("1234".data) 0 =
            (match scanLine (allPatterns []) 0 3 (("1234".data).drop (subNum4.mstart + subNum4.mlen))
                (addI32 0 (castI32 (subNum4.mstart + subNum4.mlen))) with
              | none => none
              | some (.error e) => some (.error e)
              | some (.ok ms) => some (.ok
                  (⟨addI32 (addI32 0 (castI32 subNum4.mstart)) (castI32 0), 0,
                    (("1234".data).drop subNum4.mstart).take subNum4.mlen, none⟩ :: ms))))) :=
  ⟨rfl, C4_amended_capture_fallback (allPatterns []) 0 3 ("1234".data) 0 subNum4 rfl⟩

/-- C5: in unique mode each walked match's hint is the hint of the first
earlier match with the same text — equivalently, the hint at the rank of its
text in first-occurrence order, so duplicates reuse the stored hint and
consume nothing; concretely, the lorem line yields 3 matches hinted
`a`, `b`, `a`. -/
theorem C5_unique_reuse :
    (∀ (ms : List M) (hs : List String), (∀ m ∈ ms, m.hint = none) → ∀ (i : Nat),
      ((assignUnique ms [] hs.reverse).get? i).map M.hint
        = (ms.get? i).map (fun m => hs.get? (idxOfT m.text (newTexts [] ms))))
    ∧ StateMatches [loremLine] "abcd" [] false true = some (.ok
        [⟨6, 0, "127.0.0.1".data, some "a"⟩,
         ⟨22, 0, "255.255.255.255".data, some "b"⟩,
         ⟨44, 0, "127.0.0.1".data, some "a"⟩]) := by
  constructor
  · intro ms hs hnone i
    rw [assignUnique_get ms [] hs.reverse i hnone]
    cases hmi : ms.get? i with
    | none => rfl
    | some mi =>
        simp [lookupPrev, List.reverse_reverse]
  · rfl

/-- Witness for C5: three matches, texts `aa`, `bb`, `aa`, hints `a`, `b`;
the third match reuses the first hint. -/
theorem C5_witness :
    (∀ m ∈ msC5, m.hint = none)
    ∧ ((assignUnique msC5 [] (["a", "b"] : List String).reverse).get? 2).map M.hint
        = (msC5.get? 2).map (fun m => (["a", "b"] : List String).get? (idxOfT m.text (newTexts [] msC5))) :=
  ⟨by decide, (C5_unique_reuse).1 msC5 ["a", "b"] (by decide) 2⟩

/-- C6: in non-unique mode the `i`-th walked match receives exactly the
`i`-th hint of the allocator's sequence (the stack of reversed hints is
popped from its end, i.e. in original forward order), one hint per match;
concretely, the lorem line yields 3 matches hinted `a`, `b`, `c`. -/
theorem C6_forward_assignment :
    (∀ (ms : List M) (hs : List String) (i : Nat),
      ((assignAll ms hs.reverse).get? i).map M.hint
        = (ms.get? i).map (fun m => orO (hs.get? i) m.hint))
    ∧ StateMatches [loremLine] "abcd" [] false false = some (.ok
        [⟨6, 0, "127.0.0.1".data, some "a"⟩,
         ⟨22, 0, "255.255.255.255".data, some "b"⟩,
         ⟨44, 0, "127.0.0.1".data, some "c"⟩]) :=
  ⟨assignAll_get, rfl⟩

/-- C7: when fewer hints are available than matches, allocation still
returns: positions, lines and texts are untouched in every mode, a walked
match beyond the hints (non-unique) keeps hint `none`, and in unique mode a
match whose text ranks beyond the hints keeps hint `none`. -/
theorem C7_exhaustion_no_hint (ms : List M) (hints : List String) (rev uniq : Bool)
    (_hlt : hints.length < ms.length) (hnone : ∀ m ∈ ms, m.hint = none) :
    ((allocate ms hints rev uniq).map projM = ms.map projM)
    ∧ (∀ i, hints.length ≤ i → i < ms.length →
        ((assignAll ms hints.reverse).get? i).map M.hint = some none)
    ∧ (∀ i mi, ms.get? i = some mi → hints.length ≤ idxOfT mi.text (newTexts [] ms) →
        ((assignUnique ms [] hints.reverse).get? i).map M.hint = some none) := by
  refine ⟨allocate_proj ms hints rev uniq, ?_, ?_⟩
  · intro i hge hlt2
    rw [assignAll_get ms hints i]
    rcases hmi : ms.get? i with _ | mi
    · rw [List.get?_eq_none] at hmi; omega
    · have hhn : hints.get? i = none := List.get?_eq_none.mpr hge
      have hmn := hnone mi (List.get?_mem hmi)
      simp only [Option.map_some']
      rw [hhn]
      simp [orO, hmn]
  · intro i mi hmi hge
    rw [assignUnique_get ms [] hints.reverse i hnone, hmi]
    simp [lookupPrev, List.reverse_reverse, List.get?_eq_none]
    exact hge

/-- Witness for C7: two matches, one hint; the second match ends up with no
hint and no error. -/
theorem C7_witness :
    (["a"] : List String).length < msC7.length
    ∧ (∀ m ∈ msC7, m.hint = none)
    ∧ ((assignAll msC7 (["a"] : List String).reverse).get? 1).map M.hint = some none :=
  ⟨by decide, by decide,
    (C7_exhaustion_no_hint msC7 ["a"] false false (by decide) (by decide)).2.1 1
      (by decide) (by decide)⟩

/-- C8: any custom pattern that fails to compile aborts the whole operation
with the bad-pattern error, for every input — the error is decided during
catalog construction, before any line is scanned and before any match is
produced. -/
theorem C8_bad_pattern_fatal (lines : List (List Char)) (alphabet : String)
    (customs : List (Option RE)) (rev uniq : Bool) (h : none ∈ customs) :
    StateMatches lines alphabet customs rev uniq = some (.error .badPattern) := by
  have hc : compileCustoms customs = none := by
    induction customs with
    | nil => cases h
    | cons c cs ih =>
        cases c with
        | none => rfl
        | some r =>
            have h' : none ∈ cs := by
              rcases List.mem_cons.mp h with hh | hh
              · cases hh
              · exact hh
            rw [compileCustoms, ih h']
            rfl
  rw [StateMatches, hc]

/-- Witness for C8: a single bad custom pattern fails the whole call. -/
theorem C8_witness :
    StateMatches ["x".data] "abcd" [none] false false = some (.error .badPattern) :=
  C8_bad_pattern_fatal ["x".data] "abcd" [none] false false (List.Mem.head _)

/-- C9: the diff-header lines yield exactly one match each, whose text is the
captured path `src/main.rs` and whose column is the capture's start (6), not
the whole match's start (0). -/
theorem C9_diff_headers :
    (StateMatches ["--- a/src/main.rs".data] "abcd" [] false false).map
        (Except.map (List.map projM)) = some (.ok [((6 : Int), (0 : Int), "src/main.rs".data)])
    ∧ (StateMatches ["+++ b/src/main.rs".data] "abcd" [] false false).map
        (Except.map (List.map projM)) = some (.ok [((6 : Int), (0 : Int), "src/main.rs".data)]) :=
  ⟨rfl, rfl⟩

/-- C10: if no pattern of the catalog has the empty string as its leftmost
match in any suffix of the line, the scan loop terminates within
`length + 1` iterations: each step consumes through the winning match's end
and strictly shortens the rest. -/
theorem C10_scan_terminates (pats : List (String × RE)) (y : Int)
    (chunk : List Char) (offset : Int)
    (h : ∀ s ∈ chunk.tails, ∀ p ∈ pats,
      Option.all (fun m => decide (0 < m.2.1)) (findFrom p.2 s 0) = true) :
    scanLine pats y (chunk.length + 1) chunk offset ≠ none :=
  scanLine_total pats y (chunk.length + 1) chunk offset (Nat.lt_succ_self _) h

/-- Witness for C10: the built-in catalog never matches empty, so the scan of
`"ab 1234"` terminates. -/
theorem C10_witness :
    (∀ s ∈ ("ab 1234".data).tails, ∀ p ∈ allPatterns [],
      Option.all (fun m => decide (0 < m.2.1)) (findFrom p.2 s 0) = true)
    ∧ scanLine (allPatterns []) 0 (("ab 1234".data).length + 1) ("ab 1234".data) 0 ≠ none :=
  ⟨by decide, C10_scan_terminates (allPatterns []) 0 ("ab 1234".data) 0 (by decide)⟩

end TmuxThumbs
